import Mathlib

/-!
Verification of the Siddon-Jacobs ray-cast interpolator
(`itkSiddonJacobsRayCastInterpolateImageFunction.h/.hxx`).

The embedding uses exact rational arithmetic in place of C `float`/`double`,
`Int` in place of machine integers, and total functions for the per-pixel
evaluation pipeline.  Rotation matrices are parametrized by the cosine and
sine of the rotation angle (the code calls `cos`/`sin` on the angle; here the
pair is passed directly, with the characterizing identity `c^2 + s^2 = 1`
appearing as a hypothesis where orthogonality is needed).
-/

set_option linter.unusedVariables false

/-- A 3-vector of rationals (world/camera coordinates, `PointType`). -/
structure Vec3 where
  x : ℚ
  y : ℚ
  z : ℚ
deriving DecidableEq, Repr

/-- Componentwise addition. -/
def Vec3.add (u v : Vec3) : Vec3 := ⟨u.x + v.x, u.y + v.y, u.z + v.z⟩

/-- Componentwise subtraction. -/
def Vec3.sub (u v : Vec3) : Vec3 := ⟨u.x - v.x, u.y - v.y, u.z - v.z⟩

/-- Componentwise negation. -/
def Vec3.neg (u : Vec3) : Vec3 := ⟨-u.x, -u.y, -u.z⟩

/-- The zero vector. -/
def Vec3.zero : Vec3 := ⟨0, 0, 0⟩

/-- A 3x3 rational matrix, row major (`m01` is row 0, column 1). -/
structure Mat3 where
  m00 : ℚ
  m01 : ℚ
  m02 : ℚ
  m10 : ℚ
  m11 : ℚ
  m12 : ℚ
  m20 : ℚ
  m21 : ℚ
  m22 : ℚ
deriving DecidableEq, Repr

/-- The identity matrix. -/
def Mat3.one : Mat3 := ⟨1, 0, 0, 0, 1, 0, 0, 0, 1⟩

/-- Matrix product. -/
def Mat3.mul (a b : Mat3) : Mat3 :=
  ⟨a.m00 * b.m00 + a.m01 * b.m10 + a.m02 * b.m20,
   a.m00 * b.m01 + a.m01 * b.m11 + a.m02 * b.m21,
   a.m00 * b.m02 + a.m01 * b.m12 + a.m02 * b.m22,
   a.m10 * b.m00 + a.m11 * b.m10 + a.m12 * b.m20,
   a.m10 * b.m01 + a.m11 * b.m11 + a.m12 * b.m21,
   a.m10 * b.m02 + a.m11 * b.m12 + a.m12 * b.m22,
   a.m20 * b.m00 + a.m21 * b.m10 + a.m22 * b.m20,
   a.m20 * b.m01 + a.m21 * b.m11 + a.m22 * b.m21,
   a.m20 * b.m02 + a.m21 * b.m12 + a.m22 * b.m22⟩

/-- Matrix transpose. -/
def Mat3.transpose (a : Mat3) : Mat3 :=
  ⟨a.m00, a.m10, a.m20, a.m01, a.m11, a.m21, a.m02, a.m12, a.m22⟩

/-- Matrix-vector product. -/
def Mat3.mulVec (a : Mat3) (v : Vec3) : Vec3 :=
  ⟨a.m00 * v.x + a.m01 * v.y + a.m02 * v.z,
   a.m10 * v.x + a.m11 * v.y + a.m12 * v.z,
   a.m20 * v.x + a.m21 * v.y + a.m22 * v.z⟩

theorem Vec3.ext3 (u v : Vec3) (h1 : u.x = v.x) (h2 : u.y = v.y) (h3 : u.z = v.z) :
    u = v := by
  cases u
  cases v
  simp_all

theorem Mat3.ext9 (a b : Mat3) (h1 : a.m00 = b.m00) (h2 : a.m01 = b.m01)
    (h3 : a.m02 = b.m02) (h4 : a.m10 = b.m10) (h5 : a.m11 = b.m11)
    (h6 : a.m12 = b.m12) (h7 : a.m20 = b.m20) (h8 : a.m21 = b.m21)
    (h9 : a.m22 = b.m22) : a = b := by
  cases a
  cases b
  simp_all

theorem Mat3.mul_assoc (a b c : Mat3) : (a.mul b).mul c = a.mul (b.mul c) := by
  apply Mat3.ext9 <;> simp [Mat3.mul] <;> ring

theorem Mat3.one_mul (a : Mat3) : Mat3.one.mul a = a := by
  apply Mat3.ext9 <;> simp [Mat3.mul, Mat3.one]

theorem Mat3.mul_one (a : Mat3) : a.mul Mat3.one = a := by
  apply Mat3.ext9 <;> simp [Mat3.mul, Mat3.one]

theorem Mat3.transpose_mul (a b : Mat3) :
    (a.mul b).transpose = b.transpose.mul a.transpose := by
  apply Mat3.ext9 <;> simp [Mat3.mul, Mat3.transpose] <;> ring

theorem Mat3.one_mulVec (v : Vec3) : Mat3.one.mulVec v = v := by
  apply Vec3.ext3 <;> simp [Mat3.mulVec, Mat3.one]

theorem Mat3.mul_mulVec (a b : Mat3) (v : Vec3) :
    (a.mul b).mulVec v = a.mulVec (b.mulVec v) := by
  apply Vec3.ext3 <;> simp [Mat3.mul, Mat3.mulVec] <;> ring

theorem Mat3.mulVec_add (a : Mat3) (u v : Vec3) :
    a.mulVec (u.add v) = (a.mulVec u).add (a.mulVec v) := by
  apply Vec3.ext3 <;> simp [Mat3.mulVec, Vec3.add] <;> ring

theorem Vec3.add_neg_cancel (u v : Vec3) : (u.add v).add v.neg = u := by
  apply Vec3.ext3 <;> simp [Vec3.add, Vec3.neg]

/-- Orthogonality of a matrix: its transpose is a left inverse. -/
def Mat3.IsOrtho (a : Mat3) : Prop := a.transpose.mul a = Mat3.one

theorem Mat3.IsOrtho.mul {a b : Mat3} (ha : a.IsOrtho) (hb : b.IsOrtho) :
    (a.mul b).IsOrtho := by
  unfold Mat3.IsOrtho at *
  rw [Mat3.transpose_mul, Mat3.mul_assoc, ← Mat3.mul_assoc a.transpose, ha,
    Mat3.one_mul, hb]

theorem Mat3.isOrtho_one : Mat3.one.IsOrtho := by
  unfold Mat3.IsOrtho
  with_unfolding_all decide

/--
An affine map `p ↦ A p + t`, the internal representation used by the ITK
class `MatrixOffsetTransformBase` (matrix + offset).
-/
structure Aff where
  A : Mat3
  t : Vec3
deriving DecidableEq, Repr

/-- Apply an affine map to a point: `TransformPoint`. -/
def Aff.apply (a : Aff) (v : Vec3) : Vec3 := (a.A.mulVec v).add a.t

/-- The identity transform (`SetIdentity`). -/
def Aff.id : Aff := ⟨Mat3.one, Vec3.zero⟩

/--
Composition `Aff.compose other self` follows the ITK call
`Compose(other, pre = false)` on `self`: the result applies `self` first and `other` afterwards
(matrix `other.A * self.A`, offset `other.A * self.t + other.t`).
-/
def Aff.compose (other self : Aff) : Aff :=
  ⟨other.A.mul self.A, (other.A.mulVec self.t).add other.t⟩

theorem Aff.apply_compose (o s : Aff) (v : Vec3) :
    (Aff.compose o s).apply v = o.apply (s.apply v) := by
  simp only [Aff.apply, Aff.compose, Mat3.mul_mulVec, Mat3.mulVec_add]
  simp only [Mat3.mulVec, Vec3.add, Vec3.mk.injEq]
  refine ⟨by ring, by ring, by ring⟩

/--
Inverse of an affine map with an orthogonal matrix, as produced by
`GetInverse` for rigid transforms: matrix `A^T`, offset `-(A^T t)`.
-/
def Aff.invOrtho (a : Aff) : Aff := ⟨a.A.transpose, (a.A.transpose.mulVec a.t).neg⟩

theorem Aff.invOrtho_apply {a : Aff} (h : a.A.IsOrtho) (v : Vec3) :
    a.invOrtho.apply (a.apply v) = v := by
  simp only [Aff.apply, Aff.invOrtho, Mat3.mulVec_add]
  rw [Vec3.add_neg_cancel, ← Mat3.mul_mulVec, h, Mat3.one_mulVec]

/--
An `Euler3DTransform` as configured by the code: rotation matrix, rotation
center and translation (`p ↦ R (p - C) + C + T`).
-/
structure Pose where
  R : Mat3
  center : Vec3
  trans : Vec3
deriving DecidableEq, Repr

/-- The matrix/offset form of an Euler transform: offset `C + T - R C`. -/
def Pose.toAff (p : Pose) : Aff :=
  ⟨p.R, ((p.center.add p.trans).sub (p.R.mulVec p.center))⟩

/-- The identity pose (identity rotation, zero center and translation). -/
def Pose.identity : Pose := ⟨Mat3.one, Vec3.zero, Vec3.zero⟩

/--
Rotation matrix of `SetRotation(0, 0, -angle)` (gantry rotation about z by
the negated projection angle), written in terms of `cg = cos angle` and
`sg = sin angle`: `Rz(-angle) = [[cg, sg, 0], [-sg, cg, 0], [0, 0, 1]]`.
-/
def gantryMatrix (cg sg : ℚ) : Mat3 := ⟨cg, sg, 0, -sg, cg, 0, 0, 0, 1⟩

/--
Rotation matrix of `SetRotation(dtr * (-90), 0, 0)` (the fixed camera
rotation about x by -90 degrees): `Rx(-90deg) = [[1,0,0],[0,0,1],[0,-1,0]]`.
-/
def camRotMatrix : Mat3 := ⟨1, 0, 0, 0, 0, 1, 0, -1, 0⟩

theorem gantryMatrix_isOrtho {cg sg : ℚ} (h : cg ^ 2 + sg ^ 2 = 1) :
    (gantryMatrix cg sg).IsOrtho := by
  unfold Mat3.IsOrtho
  apply Mat3.ext9 <;> simp [gantryMatrix, Mat3.transpose, Mat3.mul, Mat3.one] <;>
    ring_nf <;> linarith [h]

theorem camRotMatrix_isOrtho : camRotMatrix.IsOrtho := by
  unfold Mat3.IsOrtho
  with_unfolding_all decide

/-- The gantry rotation transform: rotation about z centered at the isocenter. -/
def gantryAff (cg sg : ℚ) (isocenter : Vec3) : Aff :=
  Pose.toAff ⟨gantryMatrix cg sg, isocenter, Vec3.zero⟩

/--
The camera-shift transform: pure translation
`(-isocenter.x, D - isocenter.y, -isocenter.z)` where `D` is
`m_FocalPointToIsocenterDistance`.
-/
def camShiftAff (isocenter : Vec3) (dist : ℚ) : Aff :=
  ⟨Mat3.one, ⟨-isocenter.x, dist - isocenter.y, -isocenter.z⟩⟩

/-- The fixed camera rotation transform (about x by -90 degrees, center 0). -/
def camRotAff : Aff := ⟨camRotMatrix, Vec3.zero⟩

/--
The composed forward transform of `ComputeInverseTransform`: starting from
the identity and composing, via `Compose(_, 0)` in code order, the caller
pose, the gantry rotation about z centered at the pose isocenter, the camera
shift, and the fixed camera rotation.  `cg`/`sg` are the cosine and sine of
`m_ProjectionAngle`, `dist` is `m_FocalPointToIsocenterDistance`.
-/
def composedTransform (pose : Pose) (cg sg dist : ℚ) : Aff :=
  let t1 := Aff.compose pose.toAff Aff.id
  let isocenter := pose.center
  let t2 := Aff.compose (gantryAff cg sg isocenter) t1
  let t3 := Aff.compose (camShiftAff isocenter dist) t2
  Aff.compose camRotAff t3

/-- The stored `m_InverseTransform`: the inverse of the composed transform. -/
def inverseTransformOf (pose : Pose) (cg sg dist : ℚ) : Aff :=
  (composedTransform pose cg sg dist).invOrtho

/-- The field `m_SourcePoint`, set to the origin in the constructor and never changed. -/
def srcPoint0 : Vec3 := ⟨0, 0, 0⟩

theorem composedTransform_matrix_isOrtho (pose : Pose) (cg sg dist : ℚ)
    (hpose : pose.R.IsOrtho) (htrig : cg ^ 2 + sg ^ 2 = 1) :
    (composedTransform pose cg sg dist).A.IsOrtho := by
  have hg : (gantryMatrix cg sg).IsOrtho := gantryMatrix_isOrtho htrig
  have h1 : Mat3.IsOrtho Mat3.one := Mat3.isOrtho_one
  simp only [composedTransform, Aff.compose, gantryAff, camShiftAff, camRotAff,
    Pose.toAff, Aff.id]
  exact (camRotMatrix_isOrtho.mul (h1.mul (hg.mul (hpose.mul h1))))

/-!
## Ray-box intersection and Siddon-Jacobs voxel traversal

Embedding of `Evaluate` (`.hxx` lines 156-379): ray vector, per-axis slab
ranges, entry-point index, per-axis running alpha initialization, alpha
increments, step directions, the traversal loop, and output clamping.
-/

/-- The input volume: grid size, voxel spacing, and voxel intensities. -/
structure Volume where
  szX : ℕ
  szY : ℕ
  szZ : ℕ
  spX : ℚ
  spY : ℚ
  spZ : ℚ
  val : ℤ → ℤ → ℤ → ℚ

/-- The ray vector `drrPixelWorld - SourceWorld`, componentwise. -/
def rayOf (sw dw : Vec3) : Vec3 := ⟨dw.x - sw.x, dw.y - sw.y, dw.z - sw.z⟩

/--
Per-axis slab range (`.hxx` 165-202): if the ray component is nonzero, the
min and max of the parametric values at the bounding planes `0` and `bound`
(`bound = size * spacing`); otherwise the sentinel pair `(-2, 2)`.
-/
def axisSlab (s r bound : ℚ) : ℚ × ℚ :=
  if r ≠ 0 then
    (min ((0 - s) / r) ((bound - s) / r), max ((0 - s) / r) ((bound - s) / r))
  else
    (-2, 2)

/-- The value `alphaMin = max(max(alphaXmin, alphaYmin), alphaZmin)` (`.hxx` 206). -/
def alphaMinOf (v : Volume) (sw r : Vec3) : ℚ :=
  max (max (axisSlab sw.x r.x (v.szX * v.spX)).1 (axisSlab sw.y r.y (v.szY * v.spY)).1)
    (axisSlab sw.z r.z (v.szZ * v.spZ)).1

/-- The value `alphaMax = min(min(alphaXmax, alphaYmax), alphaZmax)` (`.hxx` 207). -/
def alphaMaxOf (v : Volume) (sw r : Vec3) : ℚ :=
  min (min (axisSlab sw.x r.x (v.szX * v.spX)).2 (axisSlab sw.y r.y (v.szY * v.spY)).2)
    (axisSlab sw.z r.z (v.szZ * v.spZ)).2

/--
Continuous voxel index of the first intersection point on one axis
(`.hxx` 213-220): `(S + alphaMin * r) / spacing`.
-/
def firstIdx (s r sp amin : ℚ) : ℚ := (s + amin * r) / sp

/--
Initial per-axis running alpha (`.hxx` 231-262): sentinel `2` for a zero ray
component, otherwise the larger of the parametric values at the `ceil` and
`floor` planes of the entry index.
-/
def alphaInitAxis (s r sp idx : ℚ) : ℚ :=
  if r = 0 then 2
  else max (((⌈idx⌉ : ℚ) * sp - s) / r) (((⌊idx⌋ : ℚ) * sp - s) / r)

/--
Per-axis alpha increment (`.hxx` 265-288): `spacing / |r|` for a nonzero ray
component, sentinel `999` otherwise.
-/
def alphaUAxis (r sp : ℚ) : ℚ := if r ≠ 0 then sp / |r| else 999

/-- Per-axis voxel index step (`.hxx` 290-314): `1` if `S < D`, else `-1`. -/
def stepDir (s d : ℚ) : ℤ := if s < d then 1 else -1

/-- The loop-constant data of one traversal. -/
structure TravCtx where
  aUx : ℚ
  aUy : ℚ
  aUz : ℚ
  iU : ℤ
  jU : ℤ
  kU : ℤ
  szX : ℕ
  szY : ℕ
  szZ : ℕ
  thr : ℚ
  vol : ℤ → ℤ → ℤ → ℚ
  aMax : ℚ

/-- The mutable state of the traversal loop. -/
structure TravState where
  aX : ℚ
  aY : ℚ
  aZ : ℚ
  iX : ℤ
  iY : ℤ
  iZ : ℤ
  aCmin : ℚ
  d12 : ℚ
deriving DecidableEq, Repr

/-- The minimum `min(min(alphaX, alphaY), alphaZ)` of the running per-axis alphas. -/
def minAlpha (s : TravState) : ℚ := min (min s.aX s.aY) s.aZ

/--
The bounds-check and accumulation of one loop iteration (`.hxx` 354-364):
if the (already stepped) voxel index is inside `[0, size)` on all axes and
its intensity strictly exceeds the threshold, add
`(alphaCmin - alphaCminPrev) * (value - threshold)` to `d12`.
-/
def accumStep (c : TravCtx) (prev : ℚ) (s : TravState) : TravState :=
  if 0 ≤ s.iX ∧ s.iX < (c.szX : ℤ) ∧ 0 ≤ s.iY ∧ s.iY < (c.szY : ℤ) ∧
      0 ≤ s.iZ ∧ s.iZ < (c.szZ : ℤ) then
    if c.thr < c.vol s.iX s.iY s.iZ then
      { s with d12 := s.d12 + (s.aCmin - prev) * (c.vol s.iX s.iY s.iZ - c.thr) }
    else s
  else s

/--
One iteration of the traversal loop body (`.hxx` 330-364): save the current
`alphaCmin`, advance the axis with the smallest running alpha (testing x
first, then y, else z), then bounds-check and accumulate.
-/
def travStep (c : TravCtx) (s : TravState) : TravState :=
  if s.aX ≤ s.aY ∧ s.aX ≤ s.aZ then
    accumStep c s.aCmin { s with aCmin := s.aX, iX := s.iX + c.iU, aX := s.aX + c.aUx }
  else if s.aY ≤ s.aX ∧ s.aY ≤ s.aZ then
    accumStep c s.aCmin { s with aCmin := s.aY, iY := s.iY + c.jU, aY := s.aY + c.aUy }
  else
    accumStep c s.aCmin { s with aCmin := s.aZ, iZ := s.iZ + c.kU, aZ := s.aZ + c.aUz }

/--
The fuel-indexed traversal loop (`.hxx` 327: `while (alphaCmin < alphaMax)`).
With enough fuel (see `travLoop_stable`) this computes exactly the C++
`while` loop.
-/
def travLoop (c : TravCtx) : ℕ → TravState → TravState
  | 0, s => s
  | n + 1, s => if s.aCmin < c.aMax then travLoop c n (travStep c s) else s

/--
Upper bound on the number of boundary crossings an axis can still make
before its running alpha reaches `aMax`.
-/
def ceilCount (aMax a u : ℚ) : ℕ := (⌈(aMax - a) / u⌉).toNat

/-- Fuel sufficient for the traversal loop to reach its exit condition. -/
def phiFuel (c : TravCtx) (s : TravState) : ℕ :=
  ceilCount c.aMax s.aX c.aUx + ceilCount c.aMax s.aY c.aUy +
    ceilCount c.aMax s.aZ c.aUz

/-- The loop-constant data computed by `Evaluate` for one ray. -/
def travCtxOf (v : Volume) (sw dw : Vec3) (thr : ℚ) : TravCtx :=
  { aUx := alphaUAxis (rayOf sw dw).x v.spX
    aUy := alphaUAxis (rayOf sw dw).y v.spY
    aUz := alphaUAxis (rayOf sw dw).z v.spZ
    iU := stepDir sw.x dw.x
    jU := stepDir sw.y dw.y
    kU := stepDir sw.z dw.z
    szX := v.szX
    szY := v.szY
    szZ := v.szZ
    thr := thr
    vol := v.val
    aMax := alphaMaxOf v sw (rayOf sw dw) }

/--
The initial loop state computed by `Evaluate` (`.hxx` 316-325): zero
accumulator, voxel index at the floor of the entry index, per-axis running
alphas from `alphaInitAxis`, and `alphaCmin` their minimum.
-/
def travInitOf (v : Volume) (sw dw : Vec3) : TravState :=
  let r := rayOf sw dw
  let amin := alphaMinOf v sw r
  let aX := alphaInitAxis sw.x r.x v.spX (firstIdx sw.x r.x v.spX amin)
  let aY := alphaInitAxis sw.y r.y v.spY (firstIdx sw.y r.y v.spY amin)
  let aZ := alphaInitAxis sw.z r.z v.spZ (firstIdx sw.z r.z v.spZ amin)
  { aX := aX
    aY := aY
    aZ := aZ
    iX := ⌊firstIdx sw.x r.x v.spX amin⌋
    iY := ⌊firstIdx sw.y r.y v.spY amin⌋
    iZ := ⌊firstIdx sw.z r.z v.spZ amin⌋
    aCmin := min (min aX aY) aZ
    d12 := 0 }

/-- The accumulated `d12` of one full traversal. -/
def siddonD12 (v : Volume) (sw dw : Vec3) (thr : ℚ) : ℚ :=
  (travLoop (travCtxOf v sw dw thr)
    (phiFuel (travCtxOf v sw dw thr) (travInitOf v sw dw) + 1)
    (travInitOf v sw dw)).d12

/--
Output clamping (`.hxx` 367-378): values below `minOut` clamp to `minOut`,
above `maxOut` clamp to `maxOut`, otherwise `d12` is returned unchanged.
-/
def clampOutput (minOut maxOut d : ℚ) : ℚ :=
  if d < minOut then minOut else if maxOut < d then maxOut else d

/--
The whole of `Evaluate` for a given inverse transform: map the source point
and the input point to world space, traverse, clamp.
-/
def evaluatePixel (inv : Aff) (v : Volume) (thr minOut maxOut : ℚ) (p : Vec3) : ℚ :=
  clampOutput minOut maxOut
    (siddonD12 v (inv.apply srcPoint0) (inv.apply p) thr)

/-!
## Division-guard instrumentation

The same per-axis computations, written with an `Option`-valued division that
fails on a zero divisor.  They witness that every division the code performs
on a ray component is guarded by that component being nonzero.
-/

/-- Division that fails instead of dividing by zero. -/
def checkedDiv (a b : ℚ) : Option ℚ := if b = 0 then none else some (a / b)

/-- Checked variant of `axisSlab`. -/
def axisSlabChecked (s r bound : ℚ) : Option (ℚ × ℚ) :=
  if r ≠ 0 then
    (checkedDiv (0 - s) r).bind fun a1 =>
      (checkedDiv (bound - s) r).map fun aN => (min a1 aN, max a1 aN)
  else
    some (-2, 2)

/-- Checked variant of `alphaInitAxis`. -/
def alphaInitAxisChecked (s r sp idx : ℚ) : Option ℚ :=
  if r = 0 then some 2
  else
    (checkedDiv ((⌈idx⌉ : ℚ) * sp - s) r).bind fun u =>
      (checkedDiv ((⌊idx⌋ : ℚ) * sp - s) r).map fun d => max u d

/-- Checked variant of `alphaUAxis`. -/
def alphaUAxisChecked (r sp : ℚ) : Option ℚ :=
  if r ≠ 0 then checkedDiv sp |r| else some 999

/-!
## The modification-time state machine

Embedding of the configuration setters (`.h` 151-166), the staleness check in
`Evaluate` (`.hxx` 123-138), `ComputeInverseTransform` (`.hxx` 395-429) and
`Initialize` (`.hxx` 432-438).  ITK modification times are modelled by a
per-object counter fed from a global clock: `Modified()` stamps the object
with a fresh, strictly larger tick.
-/

/-- Configuration values of the interpolator. -/
structure GeomConfig where
  pose : Pose
  cg : ℚ
  sg : ℚ
  dist : ℚ
  thr : ℚ
deriving DecidableEq, Repr

/-- The inverse transform `ComputeInverseTransform` would build right now. -/
def buildInv (c : GeomConfig) : Aff := inverseTransformOf c.pose c.cg c.sg c.dist

/--
The interpolator state: global clock, the modification time of the
interpolator itself (`this->GetMTime()`), the pose transform modification time
(`m_Transform->GetMTime()`), the configuration, the stored
`m_InverseTransform` and the cached `m_SourceWorld`.
-/
structure MState where
  clock : ℕ
  interpM : ℕ
  transM : ℕ
  config : GeomConfig
  invT : Aff
  sourceWorld : Vec3
deriving DecidableEq, Repr

/-- The call `this->Modified()`: stamp the interpolator with a fresh tick. -/
def modifiedSelf (s : MState) : MState :=
  { s with clock := s.clock + 1, interpM := s.clock + 1 }

/--
The method `ComputeInverseTransform` (`.hxx` 395-429): rebuild `m_InverseTransform`
from the current configuration; ends with `this->Modified()`.
-/
def computeInverseTransformS (s : MState) : MState :=
  modifiedSelf { s with invT := buildInv s.config }

/--
The method `Initialize` (`.hxx` 432-438): recompute the inverse transform and cache the
source point in world coordinates.
-/
def initializeS (s : MState) : MState :=
  let s1 := computeInverseTransformS s
  { s1 with sourceWorld := s1.invT.apply srcPoint0 }

/--
The setter `SetProjectionAngle` via `itkSetMacro`: if the value changes, store it and
call `this->Modified()`.  The angle is carried as its cosine/sine pair.
-/
def setProjectionAngleS (cg sg : ℚ) (s : MState) : MState :=
  if s.config.cg = cg ∧ s.config.sg = sg then s
  else modifiedSelf { s with config := { s.config with cg := cg, sg := sg } }

/-- The setter `SetFocalPointToIsocenterDistance` via `itkSetMacro`. -/
def setFocalDistanceS (d : ℚ) (s : MState) : MState :=
  if s.config.dist = d then s
  else modifiedSelf { s with config := { s.config with dist := d } }

/-- The setter `SetThreshold` via `itkSetMacro`. -/
def setThresholdS (t : ℚ) (s : MState) : MState :=
  if s.config.thr = t then s
  else modifiedSelf { s with config := { s.config with thr := t } }

/--
The setter `SetTransform` via `itkSetObjectMacro`: installing a (new) pose object calls
`this->Modified()` on the interpolator.  The modification time of the new
object is whatever it was when the caller configured it; installing it does
not advance `m_Transform->GetMTime()` past the fresh interpolator stamp.
-/
def setTransformS (p : Pose) (s : MState) : MState :=
  modifiedSelf { s with config := { s.config with pose := p } }

/--
The caller mutating the pose transform object itself (e.g.
`m_Transform->SetParameters`): the pose changes and the transform object is
stamped with a fresh tick.
-/
def modifyPoseS (p : Pose) (s : MState) : MState :=
  { s with
    clock := s.clock + 1
    transM := s.clock + 1
    config := { s.config with pose := p } }

/--
The state effect of one `Evaluate` call (`.hxx` 123-136): if the
interpolator modification time is older than that of the transform, recompute the
inverse transform; otherwise leave everything unchanged.
-/
def evaluateStateS (s : MState) : MState :=
  if s.interpM < s.transM then computeInverseTransformS s else s

/-- The inverse transform an `Evaluate` call issued in state `s` would use. -/
def evalUsedInv (s : MState) : Aff := (evaluateStateS s).invT

/--
The world-space source point an `Evaluate` call issued in state `s` would
use (`.hxx` 138: `m_InverseTransform->TransformPoint(m_SourcePoint)`).
-/
def evalUsedSource (s : MState) : Vec3 := (evalUsedInv s).apply srcPoint0

/-- The value an `Evaluate` call issued in state `s` would return. -/
def evalOutput (s : MState) (v : Volume) (minOut maxOut : ℚ) (p : Vec3) : ℚ :=
  evaluatePixel (evalUsedInv s) v s.config.thr minOut maxOut p

/-- Calls that may sit between `Initialize()` and a later `Evaluate`
without touching the geometry configuration. -/
inductive PostOp where
  | eval : PostOp
  | setThr : ℚ → PostOp

/-- State effect of one post-`Initialize` call. -/
def applyPostOp : PostOp → MState → MState
  | PostOp.eval, s => evaluateStateS s
  | PostOp.setThr t, s => setThresholdS t s

/-- State effect of a sequence of post-`Initialize` calls. -/
def applyPostOps : List PostOp → MState → MState
  | [], s => s
  | op :: rest, s => applyPostOps rest (applyPostOp op s)

/-!
## Traversal lemmas
-/

theorem accumStep_fields (c : TravCtx) (prev : ℚ) (s : TravState) :
    (accumStep c prev s).aX = s.aX ∧ (accumStep c prev s).aY = s.aY ∧
    (accumStep c prev s).aZ = s.aZ ∧ (accumStep c prev s).iX = s.iX ∧
    (accumStep c prev s).iY = s.iY ∧ (accumStep c prev s).iZ = s.iZ ∧
    (accumStep c prev s).aCmin = s.aCmin := by
  unfold accumStep
  split_ifs <;> exact ⟨rfl, rfl, rfl, rfl, rfl, rfl, rfl⟩

theorem zBranch_le {s : TravState} (h1 : ¬(s.aX ≤ s.aY ∧ s.aX ≤ s.aZ))
    (h2 : ¬(s.aY ≤ s.aX ∧ s.aY ≤ s.aZ)) : s.aZ ≤ s.aX ∧ s.aZ ≤ s.aY := by
  push_neg at h1 h2
  rcases le_total s.aX s.aY with h | h
  · have hz := h1 h
    exact ⟨hz.le, hz.le.trans h⟩
  · have hz := h2 h
    exact ⟨hz.le.trans h, hz.le⟩

theorem travStep_aCmin (c : TravCtx) (s : TravState) :
    (travStep c s).aCmin = minAlpha s := by
  unfold travStep minAlpha
  split_ifs with h1 h2
  · rw [(accumStep_fields _ _ _).2.2.2.2.2.2]
    show s.aX = _
    rw [min_eq_left h1.1, min_eq_left h1.2]
  · rw [(accumStep_fields _ _ _).2.2.2.2.2.2]
    show s.aY = _
    rw [min_eq_right h2.1, min_eq_left h2.2]
  · rw [(accumStep_fields _ _ _).2.2.2.2.2.2]
    show s.aZ = _
    have hz := zBranch_le h1 h2
    rw [min_eq_right (le_min hz.1 hz.2)]

theorem ceilCount_succ {u a aMax : ℚ} (hu : 0 < u) (hlt : a < aMax) :
    ceilCount aMax (a + u) u + 1 = ceilCount aMax a u := by
  have hx : 0 < (aMax - a) / u := div_pos (by linarith) hu
  have hceil : 0 < ⌈(aMax - a) / u⌉ := Int.ceil_pos.mpr hx
  have harg : (aMax - (a + u)) / u = (aMax - a) / u - 1 := by
    rw [show aMax - (a + u) = (aMax - a) - u by ring, sub_div, div_self (ne_of_gt hu)]
  unfold ceilCount
  rw [harg, Int.ceil_sub_one]
  omega

theorem phiFuel_decrease {c : TravCtx} {s : TravState} (hx : 0 < c.aUx)
    (hy : 0 < c.aUy) (hz : 0 < c.aUz) (hmin : minAlpha s < c.aMax) :
    phiFuel c (travStep c s) < phiFuel c s := by
  unfold travStep
  split_ifs with h1 h2
  · have hf := accumStep_fields c s.aCmin
      { s with aCmin := s.aX, iX := s.iX + c.iU, aX := s.aX + c.aUx }
    have hlt : s.aX < c.aMax := by
      have : minAlpha s = s.aX := by
        unfold minAlpha; rw [min_eq_left h1.1, min_eq_left h1.2]
      linarith [this ▸ hmin]
    have hc := ceilCount_succ hx hlt
    unfold phiFuel
    rw [hf.1, hf.2.1, hf.2.2.1]
    dsimp only
    omega
  · have hf := accumStep_fields c s.aCmin
      { s with aCmin := s.aY, iY := s.iY + c.jU, aY := s.aY + c.aUy }
    have hlt : s.aY < c.aMax := by
      have : minAlpha s = s.aY := by
        unfold minAlpha; rw [min_eq_right h2.1, min_eq_left h2.2]
      linarith [this ▸ hmin]
    have hc := ceilCount_succ hy hlt
    unfold phiFuel
    rw [hf.1, hf.2.1, hf.2.2.1]
    dsimp only
    omega
  · have hzle := zBranch_le h1 h2
    have hf := accumStep_fields c s.aCmin
      { s with aCmin := s.aZ, iZ := s.iZ + c.kU, aZ := s.aZ + c.aUz }
    have hlt : s.aZ < c.aMax := by
      have : minAlpha s = s.aZ := by
        unfold minAlpha; rw [min_eq_right (le_min hzle.1 hzle.2)]
      linarith [this ▸ hmin]
    have hc := ceilCount_succ hz hlt
    unfold phiFuel
    rw [hf.1, hf.2.1, hf.2.2.1]
    dsimp only
    omega

theorem travLoop_guard_false {c : TravCtx} {s : TravState}
    (h : ¬ s.aCmin < c.aMax) : ∀ n, travLoop c n s = s := by
  intro n
  cases n with
  | zero => rfl
  | succ n => simp [travLoop, h]

theorem travLoop_exhaust (c : TravCtx) (hx : 0 < c.aUx) (hy : 0 < c.aUy)
    (hz : 0 < c.aUz) : ∀ n s, phiFuel c s < n → ¬ (travLoop c n s).aCmin < c.aMax := by
  intro n
  induction n with
  | zero => intro s h; omega
  | succ n ih =>
    intro s h
    by_cases hg : s.aCmin < c.aMax
    · rw [show travLoop c (n + 1) s = travLoop c n (travStep c s) by
        simp [travLoop, hg]]
      by_cases hm : minAlpha s < c.aMax
      · exact ih (travStep c s) (by have := phiFuel_decrease hx hy hz hm; omega)
      · have hstop : ¬ (travStep c s).aCmin < c.aMax := by
          rw [travStep_aCmin]; exact hm
        rw [travLoop_guard_false hstop]
        exact hstop
    · rw [travLoop_guard_false hg]
      exact hg

theorem travLoop_add (c : TravCtx) (a b : ℕ) (s : TravState) :
    travLoop c (a + b) s = travLoop c b (travLoop c a s) := by
  induction a generalizing s with
  | zero =>
    rw [Nat.zero_add]
    rfl
  | succ a ih =>
    rw [Nat.succ_add]
    by_cases hg : s.aCmin < c.aMax
    · rw [show travLoop c (a + b + 1) s = travLoop c (a + b) (travStep c s) by
        simp [travLoop, hg],
        show travLoop c (a + 1) s = travLoop c a (travStep c s) by
        simp [travLoop, hg]]
      exact ih (travStep c s)
    · rw [travLoop_guard_false hg, travLoop_guard_false hg, travLoop_guard_false hg]

theorem travLoop_stable (c : TravCtx) (hx : 0 < c.aUx) (hy : 0 < c.aUy)
    (hz : 0 < c.aUz) (s : TravState) (m : ℕ) :
    travLoop c (phiFuel c s + 1 + m) s = travLoop c (phiFuel c s + 1) s := by
  rw [travLoop_add c (phiFuel c s + 1) m s]
  exact travLoop_guard_false
    (travLoop_exhaust c hx hy hz (phiFuel c s + 1) s (by omega)) m

theorem alphaUAxis_pos {r sp : ℚ} (hsp : 0 < sp) : 0 < alphaUAxis r sp := by
  unfold alphaUAxis
  split_ifs with h
  · exact div_pos hsp (abs_pos.mpr h)
  · norm_num

/-!
## Entry-alpha bounds
-/

theorem alphaInitAxis_ge {s r sp amin : ℚ} (hr : r ≠ 0) (hsp : 0 < sp) :
    amin ≤ alphaInitAxis s r sp (firstIdx s r sp amin) := by
  unfold alphaInitAxis firstIdx
  rw [if_neg hr]
  have hkey : (s + amin * r) / sp * sp = s + amin * r :=
    div_mul_cancel₀ _ (ne_of_gt hsp)
  rcases lt_or_gt_of_ne hr with hneg | hpos
  · refine le_trans ?_ (le_max_right _ _)
    rw [le_div_iff_of_neg hneg]
    have hfl : (⌊(s + amin * r) / sp⌋ : ℚ) ≤ (s + amin * r) / sp := Int.floor_le _
    have hb : (⌊(s + amin * r) / sp⌋ : ℚ) * sp ≤ s + amin * r := by
      calc (⌊(s + amin * r) / sp⌋ : ℚ) * sp
          ≤ (s + amin * r) / sp * sp := mul_le_mul_of_nonneg_right hfl hsp.le
        _ = s + amin * r := hkey
    linarith
  · refine le_trans ?_ (le_max_left _ _)
    rw [le_div_iff₀ hpos]
    have hce : (s + amin * r) / sp ≤ (⌈(s + amin * r) / sp⌉ : ℚ) := Int.le_ceil _
    have hb : s + amin * r ≤ (⌈(s + amin * r) / sp⌉ : ℚ) * sp := by
      calc s + amin * r = (s + amin * r) / sp * sp := hkey.symm
        _ ≤ (⌈(s + amin * r) / sp⌉ : ℚ) * sp :=
          mul_le_mul_of_nonneg_right hce hsp.le
    linarith

theorem axisSlab_zero_snd (s bound : ℚ) : (axisSlab s 0 bound).2 = 2 := by
  unfold axisSlab
  simp

theorem travInit_aCmin_ge {v : Volume} {sw dw : Vec3} (hx : 0 < v.spX)
    (hy : 0 < v.spY) (hz : 0 < v.spZ)
    (hmiss : alphaMaxOf v sw (rayOf sw dw) ≤ alphaMinOf v sw (rayOf sw dw)) :
    alphaMaxOf v sw (rayOf sw dw) ≤ (travInitOf v sw dw).aCmin := by
  have hax : alphaMaxOf v sw (rayOf sw dw) ≤
      alphaInitAxis sw.x (rayOf sw dw).x v.spX
        (firstIdx sw.x (rayOf sw dw).x v.spX (alphaMinOf v sw (rayOf sw dw))) := by
    by_cases hr : (rayOf sw dw).x = 0
    · rw [hr]
      unfold alphaInitAxis
      rw [if_pos rfl]
      calc alphaMaxOf v sw (rayOf sw dw)
          ≤ (axisSlab sw.x (rayOf sw dw).x (v.szX * v.spX)).2 :=
            le_trans (min_le_left _ _) (min_le_left _ _)
        _ = 2 := by rw [hr, axisSlab_zero_snd]
    · exact hmiss.trans (alphaInitAxis_ge hr hx)
  have hay : alphaMaxOf v sw (rayOf sw dw) ≤
      alphaInitAxis sw.y (rayOf sw dw).y v.spY
        (firstIdx sw.y (rayOf sw dw).y v.spY (alphaMinOf v sw (rayOf sw dw))) := by
    by_cases hr : (rayOf sw dw).y = 0
    · rw [hr]
      unfold alphaInitAxis
      rw [if_pos rfl]
      calc alphaMaxOf v sw (rayOf sw dw)
          ≤ (axisSlab sw.y (rayOf sw dw).y (v.szY * v.spY)).2 :=
            le_trans (min_le_left _ _) (min_le_right _ _)
        _ = 2 := by rw [hr, axisSlab_zero_snd]
    · exact hmiss.trans (alphaInitAxis_ge hr hy)
  have haz : alphaMaxOf v sw (rayOf sw dw) ≤
      alphaInitAxis sw.z (rayOf sw dw).z v.spZ
        (firstIdx sw.z (rayOf sw dw).z v.spZ (alphaMinOf v sw (rayOf sw dw))) := by
    by_cases hr : (rayOf sw dw).z = 0
    · rw [hr]
      unfold alphaInitAxis
      rw [if_pos rfl]
      calc alphaMaxOf v sw (rayOf sw dw)
          ≤ (axisSlab sw.z (rayOf sw dw).z (v.szZ * v.spZ)).2 := min_le_right _ _
        _ = 2 := by rw [hr, axisSlab_zero_snd]
    · exact hmiss.trans (alphaInitAxis_ge hr hz)
  show alphaMaxOf v sw (rayOf sw dw) ≤ min (min _ _) _
  exact le_min (le_min hax hay) haz

/-!
## Shared concrete instances used by witnesses and counterexamples
-/

/-- A 1x1x1 volume with unit spacing and uniform intensity 100. -/
def vol1 : Volume := ⟨1, 1, 1, 1, 1, 1, fun _ _ _ => 100⟩

/-- A source point left of `vol1`, on the axis of its single voxel row. -/
def sw1 : Vec3 := ⟨-1, 1/2, 1/2⟩

/-- A destination point right of `vol1`, so the ray crosses the volume. -/
def dw1 : Vec3 := ⟨2, 1/2, 1/2⟩

/-- A pure-translation inverse transform placing the source at `(-2, 5, 1/2)`. -/
def invMiss : Aff := ⟨Mat3.one, ⟨-2, 5, 1/2⟩⟩

/-- An input point whose ray (under `invMiss`) misses `vol1` entirely. -/
def pMiss : Vec3 := ⟨3, -3, 0⟩

/-- The accumulated (pre-clamp) sum of one `Evaluate` call. -/
def evalAccum (inv : Aff) (v : Volume) (thr : ℚ) (p : Vec3) : ℚ :=
  siddonD12 v (inv.apply srcPoint0) (inv.apply p) thr

theorem clampOutput_spec {minOut maxOut : ℚ} (d : ℚ) (h : minOut ≤ maxOut) :
    (d < minOut → clampOutput minOut maxOut d = minOut) ∧
    (maxOut < d → clampOutput minOut maxOut d = maxOut) ∧
    (minOut ≤ d → d ≤ maxOut → clampOutput minOut maxOut d = d) ∧
    clampOutput minOut maxOut d = max minOut (min maxOut d) := by
  unfold clampOutput
  split_ifs with h1 h2
  · refine ⟨fun _ => rfl, fun hc => absurd hc (by linarith), fun hc => absurd hc (by linarith), ?_⟩
    rw [min_eq_right (by linarith : d ≤ maxOut), max_eq_left h1.le]
  · refine ⟨fun hc => absurd hc h1, fun _ => rfl, fun _ hc => absurd hc (by linarith), ?_⟩
    rw [min_eq_left h2.le, max_eq_right h]
  · refine ⟨fun hc => absurd hc h1, fun hc => absurd hc h2, fun _ _ => rfl, ?_⟩
    rw [min_eq_right (by linarith : d ≤ maxOut), max_eq_right (by linarith : minOut ≤ d)]

/--
C4: if the computed parametric range of an `Evaluate` call satisfies
`alphaMin >= alphaMax` (the ray misses or is tangent to the volume), the
traversal loop body never executes (the loop leaves the initial state
unchanged), the accumulator stays `0`, and `Evaluate` returns `0`.
-/
theorem miss_yields_zero (inv : Aff) (v : Volume) (thr minOut maxOut : ℚ)
    (p : Vec3) (hx : 0 < v.spX) (hy : 0 < v.spY) (hz : 0 < v.spZ)
    (hmin : minOut ≤ 0) (hmax : 0 ≤ maxOut)
    (hmiss : alphaMaxOf v (inv.apply srcPoint0)
        (rayOf (inv.apply srcPoint0) (inv.apply p)) ≤
      alphaMinOf v (inv.apply srcPoint0)
        (rayOf (inv.apply srcPoint0) (inv.apply p))) :
    travLoop (travCtxOf v (inv.apply srcPoint0) (inv.apply p) thr)
        (phiFuel (travCtxOf v (inv.apply srcPoint0) (inv.apply p) thr)
          (travInitOf v (inv.apply srcPoint0) (inv.apply p)) + 1)
        (travInitOf v (inv.apply srcPoint0) (inv.apply p)) =
      travInitOf v (inv.apply srcPoint0) (inv.apply p) ∧
    siddonD12 v (inv.apply srcPoint0) (inv.apply p) thr = 0 ∧
    evaluatePixel inv v thr minOut maxOut p = 0 := by
  have hstop : ¬ (travInitOf v (inv.apply srcPoint0) (inv.apply p)).aCmin <
      (travCtxOf v (inv.apply srcPoint0) (inv.apply p) thr).aMax := by
    have hge := travInit_aCmin_ge hx hy hz hmiss
    exact not_lt.mpr hge
  have hloop := travLoop_guard_false hstop
  have hd : siddonD12 v (inv.apply srcPoint0) (inv.apply p) thr = 0 := by
    unfold siddonD12
    rw [hloop]
    rfl
  refine ⟨hloop _, hd, ?_⟩
  show clampOutput minOut maxOut (siddonD12 v (inv.apply srcPoint0) (inv.apply p) thr) = 0
  rw [hd]
  unfold clampOutput
  rw [if_neg (by linarith), if_neg (by linarith)]

/-- Witness for C4 at a concrete missing ray. -/
theorem miss_yields_zero_witness :
    travLoop (travCtxOf vol1 (invMiss.apply srcPoint0) (invMiss.apply pMiss) 0)
        (phiFuel (travCtxOf vol1 (invMiss.apply srcPoint0) (invMiss.apply pMiss) 0)
          (travInitOf vol1 (invMiss.apply srcPoint0) (invMiss.apply pMiss)) + 1)
        (travInitOf vol1 (invMiss.apply srcPoint0) (invMiss.apply pMiss)) =
      travInitOf vol1 (invMiss.apply srcPoint0) (invMiss.apply pMiss) ∧
    siddonD12 vol1 (invMiss.apply srcPoint0) (invMiss.apply pMiss) 0 = 0 ∧
    evaluatePixel invMiss vol1 0 (-5) 5 pMiss = 0 :=
  miss_yields_zero invMiss vol1 0 (-5) 5 pMiss
    (by norm_num [vol1]) (by norm_num [vol1]) (by norm_num [vol1])
    (by norm_num) (by norm_num) (by with_unfolding_all decide)

/--
C10: the traversal loop terminates: with strictly positive spacing every
per-axis increment is strictly positive, and the loop reaches a state whose
exit condition holds within `phiFuel + 1` iterations; running any longer
changes nothing.
-/
theorem traversal_terminates (v : Volume) (sw dw : Vec3) (thr : ℚ)
    (hx : 0 < v.spX) (hy : 0 < v.spY) (hz : 0 < v.spZ) (m : ℕ) :
    travLoop (travCtxOf v sw dw thr)
        (phiFuel (travCtxOf v sw dw thr) (travInitOf v sw dw) + 1 + m)
        (travInitOf v sw dw) =
      travLoop (travCtxOf v sw dw thr)
        (phiFuel (travCtxOf v sw dw thr) (travInitOf v sw dw) + 1)
        (travInitOf v sw dw) ∧
    ¬ (travLoop (travCtxOf v sw dw thr)
        (phiFuel (travCtxOf v sw dw thr) (travInitOf v sw dw) + 1)
        (travInitOf v sw dw)).aCmin < (travCtxOf v sw dw thr).aMax := by
  have hux : 0 < (travCtxOf v sw dw thr).aUx := alphaUAxis_pos hx
  have huy : 0 < (travCtxOf v sw dw thr).aUy := alphaUAxis_pos hy
  have huz : 0 < (travCtxOf v sw dw thr).aUz := alphaUAxis_pos hz
  exact ⟨travLoop_stable _ hux huy huz _ m,
    travLoop_exhaust _ hux huy huz _ _ (by omega)⟩

/-- Witness for C10 on a concrete ray through `vol1`. -/
theorem traversal_terminates_witness :
    travLoop (travCtxOf vol1 sw1 dw1 0)
        (phiFuel (travCtxOf vol1 sw1 dw1 0) (travInitOf vol1 sw1 dw1) + 1 + 3)
        (travInitOf vol1 sw1 dw1) =
      travLoop (travCtxOf vol1 sw1 dw1 0)
        (phiFuel (travCtxOf vol1 sw1 dw1 0) (travInitOf vol1 sw1 dw1) + 1)
        (travInitOf vol1 sw1 dw1) ∧
    ¬ (travLoop (travCtxOf vol1 sw1 dw1 0)
        (phiFuel (travCtxOf vol1 sw1 dw1 0) (travInitOf vol1 sw1 dw1) + 1)
        (travInitOf vol1 sw1 dw1)).aCmin < (travCtxOf vol1 sw1 dw1 0).aMax :=
  traversal_terminates vol1 sw1 dw1 0
    (by norm_num [vol1]) (by norm_num [vol1]) (by norm_num [vol1]) 3

/--
C6: the returned pixel value is the accumulated sum clamped to the output
range: values below the minimum return exactly the minimum, values above the
maximum return exactly the maximum, and in-range sums are returned unchanged
(never wrapped).
-/
theorem output_clamped_to_range (inv : Aff) (v : Volume) (thr minOut maxOut : ℚ)
    (p : Vec3) (h : minOut ≤ maxOut) :
    (evalAccum inv v thr p < minOut →
      evaluatePixel inv v thr minOut maxOut p = minOut) ∧
    (maxOut < evalAccum inv v thr p →
      evaluatePixel inv v thr minOut maxOut p = maxOut) ∧
    (minOut ≤ evalAccum inv v thr p → evalAccum inv v thr p ≤ maxOut →
      evaluatePixel inv v thr minOut maxOut p = evalAccum inv v thr p) ∧
    evaluatePixel inv v thr minOut maxOut p =
      max minOut (min maxOut (evalAccum inv v thr p)) :=
  clampOutput_spec (evalAccum inv v thr p) h

/-- Witness for C6 at concrete inputs. -/
theorem output_clamped_to_range_witness :
    (evalAccum Aff.id vol1 0 dw1 < -5 →
      evaluatePixel Aff.id vol1 0 (-5) 5 dw1 = -5) ∧
    (5 < evalAccum Aff.id vol1 0 dw1 →
      evaluatePixel Aff.id vol1 0 (-5) 5 dw1 = 5) ∧
    (-5 ≤ evalAccum Aff.id vol1 0 dw1 → evalAccum Aff.id vol1 0 dw1 ≤ 5 →
      evaluatePixel Aff.id vol1 0 (-5) 5 dw1 = evalAccum Aff.id vol1 0 dw1) ∧
    evaluatePixel Aff.id vol1 0 (-5) 5 dw1 =
      max (-5) (min 5 (evalAccum Aff.id vol1 0 dw1)) :=
  output_clamped_to_range Aff.id vol1 0 (-5) 5 dw1 (by norm_num)

/-!
## C3: slab ranges as the specification words them
-/

/--
The per-axis parametric range as the specification words it (for comparison
with `axisSlab` from the code): if the ray component is zero use the
sentinel interval `[-2, 2]`, otherwise take the min and max of the
parametric values at the two bounding planes `0` and `bound`.
-/
def axisRangeSpec (s r bound : ℚ) : ℚ × ℚ :=
  if r = 0 then (-2, 2)
  else (min ((0 - s) / r) ((bound - s) / r), max ((0 - s) / r) ((bound - s) / r))

theorem axisSlab_eq_spec (s r bound : ℚ) :
    axisSlab s r bound = axisRangeSpec s r bound := by
  unfold axisSlab axisRangeSpec
  by_cases hr : r = 0 <;> simp [hr]

/--
C3: the intersection parametric range of every ray is computed per axis as
min/max of the two bounding-plane parametric values when the component is
nonzero and as the sentinel `[-2, 2]` otherwise, and `alphaMin`/`alphaMax`
are the max of the per-axis minima and the min of the per-axis maxima.
-/
theorem ray_box_slab_ranges (v : Volume) (sw dw : Vec3) :
    axisSlab sw.x (rayOf sw dw).x (v.szX * v.spX) =
      axisRangeSpec sw.x (rayOf sw dw).x (v.szX * v.spX) ∧
    axisSlab sw.y (rayOf sw dw).y (v.szY * v.spY) =
      axisRangeSpec sw.y (rayOf sw dw).y (v.szY * v.spY) ∧
    axisSlab sw.z (rayOf sw dw).z (v.szZ * v.spZ) =
      axisRangeSpec sw.z (rayOf sw dw).z (v.szZ * v.spZ) ∧
    alphaMinOf v sw (rayOf sw dw) =
      max (max (axisRangeSpec sw.x (rayOf sw dw).x (v.szX * v.spX)).1
        (axisRangeSpec sw.y (rayOf sw dw).y (v.szY * v.spY)).1)
        (axisRangeSpec sw.z (rayOf sw dw).z (v.szZ * v.spZ)).1 ∧
    alphaMaxOf v sw (rayOf sw dw) =
      min (min (axisRangeSpec sw.x (rayOf sw dw).x (v.szX * v.spX)).2
        (axisRangeSpec sw.y (rayOf sw dw).y (v.szY * v.spY)).2)
        (axisRangeSpec sw.z (rayOf sw dw).z (v.szZ * v.spZ)).2 := by
  refine ⟨axisSlab_eq_spec _ _ _, axisSlab_eq_spec _ _ _, axisSlab_eq_spec _ _ _, ?_, ?_⟩
  · unfold alphaMinOf
    rw [axisSlab_eq_spec, axisSlab_eq_spec, axisSlab_eq_spec]
  · unfold alphaMaxOf
    rw [axisSlab_eq_spec, axisSlab_eq_spec, axisSlab_eq_spec]

/--
C9: every division by a ray-direction component is guarded: the checked
variants (which fail on a zero divisor) always succeed and agree with the
computations of the code, and a zero component yields exactly the sentinel
values with no division performed.
-/
theorem ray_divisions_guarded (s r bound sp idx : ℚ) :
    axisSlabChecked s r bound = some (axisSlab s r bound) ∧
    alphaInitAxisChecked s r sp idx = some (alphaInitAxis s r sp idx) ∧
    alphaUAxisChecked r sp = some (alphaUAxis r sp) ∧
    axisSlabChecked s 0 bound = some (-2, 2) ∧
    alphaInitAxisChecked s 0 sp idx = some 2 ∧
    alphaUAxisChecked 0 sp = some 999 := by
  by_cases hr : r = 0 <;>
    simp [axisSlabChecked, axisSlab, alphaInitAxisChecked, alphaInitAxis,
      alphaUAxisChecked, alphaUAxis, checkedDiv, hr, abs_eq_zero]

/-!
## C1: the traversal loop guard and step
-/

/-- The in-grid test of `.hxx` 354-356 on a voxel index triple. -/
def inBoundsIdx (c : TravCtx) (i j k : ℤ) : Prop :=
  0 ≤ i ∧ i < (c.szX : ℤ) ∧ 0 ≤ j ∧ j < (c.szY : ℤ) ∧ 0 ≤ k ∧ k < (c.szZ : ℤ)

instance (c : TravCtx) (i j k : ℤ) : Decidable (inBoundsIdx c i j k) := by
  unfold inBoundsIdx
  infer_instance

/--
One loop iteration as the claim words it: exactly one axis — the one with
the smallest running alpha, ties broken x first, then y, else z — advances
its voxel index by its step direction and its running alpha by its
increment, the pre-step alpha is recorded into `aCmin`, and the contribution
`(post-step alpha - pre-step alpha) * (intensity - threshold)` is added
exactly when the resulting voxel index is inside `[0, size)` on all axes and
its intensity strictly exceeds the threshold.
-/
def stepSpec (c : TravCtx) (s s2 : TravState) : Prop :=
  ((s.aX ≤ s.aY ∧ s.aX ≤ s.aZ) ∧
      s2.aCmin = s.aX ∧ s2.iX = s.iX + c.iU ∧ s2.aX = s.aX + c.aUx ∧
      s2.iY = s.iY ∧ s2.iZ = s.iZ ∧ s2.aY = s.aY ∧ s2.aZ = s.aZ ∨
    ¬(s.aX ≤ s.aY ∧ s.aX ≤ s.aZ) ∧ (s.aY ≤ s.aX ∧ s.aY ≤ s.aZ) ∧
      s2.aCmin = s.aY ∧ s2.iY = s.iY + c.jU ∧ s2.aY = s.aY + c.aUy ∧
      s2.iX = s.iX ∧ s2.iZ = s.iZ ∧ s2.aX = s.aX ∧ s2.aZ = s.aZ ∨
    ¬(s.aX ≤ s.aY ∧ s.aX ≤ s.aZ) ∧ ¬(s.aY ≤ s.aX ∧ s.aY ≤ s.aZ) ∧
      s2.aCmin = s.aZ ∧ s2.iZ = s.iZ + c.kU ∧ s2.aZ = s.aZ + c.aUz ∧
      s2.iX = s.iX ∧ s2.iY = s.iY ∧ s2.aX = s.aX ∧ s2.aY = s.aY) ∧
  s2.d12 = s.d12 +
    (if inBoundsIdx c s2.iX s2.iY s2.iZ ∧ c.thr < c.vol s2.iX s2.iY s2.iZ then
      (s2.aCmin - s.aCmin) * (c.vol s2.iX s2.iY s2.iZ - c.thr)
    else 0)

theorem accumStep_d12 (c : TravCtx) (prev : ℚ) (s : TravState) :
    (accumStep c prev s).d12 = s.d12 +
      (if inBoundsIdx c s.iX s.iY s.iZ ∧ c.thr < c.vol s.iX s.iY s.iZ then
        (s.aCmin - prev) * (c.vol s.iX s.iY s.iZ - c.thr)
      else 0) := by
  unfold accumStep inBoundsIdx
  split_ifs with hb hv h2 <;> simp_all

/--
C1 (amended): the loop body executes exactly while the tracked `alphaCmin`
— the alpha recorded before the previous advance, initialized to the minimum
of the running alphas — is strictly below `alphaMax`; each executed
iteration satisfies the per-step description `stepSpec`.
-/
theorem traversal_loop_step_characterization (c : TravCtx) (s : TravState) (n : ℕ) :
    travLoop c (n + 1) s =
      (if s.aCmin < c.aMax then travLoop c n (travStep c s) else s) ∧
    (s.aCmin < c.aMax → stepSpec c s (travStep c s)) := by
  refine ⟨rfl, fun _ => ?_⟩
  unfold stepSpec
  by_cases h1 : s.aX ≤ s.aY ∧ s.aX ≤ s.aZ
  · set t : TravState :=
      { s with aCmin := s.aX, iX := s.iX + c.iU, aX := s.aX + c.aUx } with ht
    have hf := accumStep_fields c s.aCmin t
    have hd := accumStep_d12 c s.aCmin t
    have hstep : travStep c s = accumStep c s.aCmin t := by
      unfold travStep
      rw [if_pos h1]
    rw [hstep]
    refine ⟨Or.inl ⟨h1, hf.2.2.2.2.2.2, hf.2.2.2.1, hf.1, hf.2.2.2.2.1,
      hf.2.2.2.2.2.1, hf.2.1, hf.2.2.1⟩, ?_⟩
    rw [hf.2.2.2.1, hf.2.2.2.2.1, hf.2.2.2.2.2.1, hf.2.2.2.2.2.2, hd]
  · by_cases h2 : s.aY ≤ s.aX ∧ s.aY ≤ s.aZ
    · set t : TravState :=
        { s with aCmin := s.aY, iY := s.iY + c.jU, aY := s.aY + c.aUy } with ht
      have hf := accumStep_fields c s.aCmin t
      have hd := accumStep_d12 c s.aCmin t
      have hstep : travStep c s = accumStep c s.aCmin t := by
        unfold travStep
        rw [if_neg h1, if_pos h2]
      rw [hstep]
      refine ⟨Or.inr (Or.inl ⟨h1, h2, hf.2.2.2.2.2.2, hf.2.2.2.2.1, hf.2.1,
        hf.2.2.2.1, hf.2.2.2.2.2.1, hf.1, hf.2.2.1⟩), ?_⟩
      rw [hf.2.2.2.1, hf.2.2.2.2.1, hf.2.2.2.2.2.1, hf.2.2.2.2.2.2, hd]
    · set t : TravState :=
        { s with aCmin := s.aZ, iZ := s.iZ + c.kU, aZ := s.aZ + c.aUz } with ht
      have hf := accumStep_fields c s.aCmin t
      have hd := accumStep_d12 c s.aCmin t
      have hstep : travStep c s = accumStep c s.aCmin t := by
        unfold travStep
        rw [if_neg h1, if_neg h2]
      rw [hstep]
      refine ⟨Or.inr (Or.inr ⟨h1, h2, hf.2.2.2.2.2.2, hf.2.2.2.2.2.1, hf.2.2.1,
        hf.2.2.2.1, hf.2.2.2.2.1, hf.1, hf.2.1⟩), ?_⟩
      rw [hf.2.2.2.1, hf.2.2.2.2.1, hf.2.2.2.2.2.1, hf.2.2.2.2.2.2, hd]

/-- The concrete traversal context of the ray `sw1 -> dw1` through `vol1`. -/
def cEx : TravCtx := travCtxOf vol1 sw1 dw1 0

/-- The loop state after the first iteration on that ray. -/
def sEx : TravState := travStep cEx (travInitOf vol1 sw1 dw1)

/-- Witness instance of the amended per-iteration characterization. -/
theorem traversal_loop_step_characterization_witness :
    travLoop cEx 1 (travInitOf vol1 sw1 dw1) =
      (if (travInitOf vol1 sw1 dw1).aCmin < cEx.aMax then
        travLoop cEx 0 (travStep cEx (travInitOf vol1 sw1 dw1))
      else travInitOf vol1 sw1 dw1) ∧
    ((travInitOf vol1 sw1 dw1).aCmin < cEx.aMax →
      stepSpec cEx (travInitOf vol1 sw1 dw1)
        (travStep cEx (travInitOf vol1 sw1 dw1))) :=
  traversal_loop_step_characterization cEx (travInitOf vol1 sw1 dw1) 0

/--
C1 counterexample: after the first iteration of the loop for the ray
`sw1 -> dw1` through `vol1`, the guard of the code (`alphaCmin < alphaMax`) is
still true and the loop performs another state-changing iteration, although
the minimum of the three per-axis running alphas is not strictly below
`alphaMax` — so the loop does not run "while the minimum of the running
alphas is below alphaMax" as claimed.
-/
theorem guard_uses_stale_min_counterexample :
    sEx.aCmin < cEx.aMax ∧ ¬ minAlpha sEx < cEx.aMax ∧
      travLoop cEx 1 sEx ≠ sEx := by
  with_unfolding_all decide

/-!
## C5: geometry composition
-/

theorem Vec3.add_zero (v : Vec3) : v.add Vec3.zero = v := by
  apply Vec3.ext3 <;> simp [Vec3.add, Vec3.zero]

theorem Aff.id_apply (v : Vec3) : Aff.id.apply v = v := by
  unfold Aff.apply Aff.id
  rw [Mat3.one_mulVec, Vec3.add_zero]

/--
C5: `ComputeInverseTransform` composes, in application order, the caller
pose, the gantry rotation of `-angle` about z centered at the pose
isocenter, the source-to-origin translation offset by the focal distance,
and the fixed `-90` degree rotation about x; the stored inverse transform
inverts this composition; and with an identity pose, projection angle `0`
and focal distance `dist`, the composed forward transform maps the
configured source point to `(0, 0, -dist)` while the stored inverse maps it
to the world point `(0, -dist, 0)`, offset by `dist` from the isocenter.
-/
theorem compose_inverse_transform_correct (pose : Pose) (cg sg dist : ℚ)
    (w : Vec3) (hpose : pose.R.IsOrtho) (htrig : cg ^ 2 + sg ^ 2 = 1) :
    (composedTransform pose cg sg dist).apply w =
      camRotAff.apply ((camShiftAff pose.center dist).apply
        ((gantryAff cg sg pose.center).apply (pose.toAff.apply w))) ∧
    (inverseTransformOf pose cg sg dist).apply
        ((composedTransform pose cg sg dist).apply w) = w ∧
    (composedTransform Pose.identity 1 0 dist).apply srcPoint0 =
      ⟨0, 0, -dist⟩ ∧
    (inverseTransformOf Pose.identity 1 0 dist).apply srcPoint0 =
      ⟨0, -dist, 0⟩ := by
  refine ⟨?_, ?_, ?_, ?_⟩
  · show (Aff.compose camRotAff (Aff.compose (camShiftAff pose.center dist)
      (Aff.compose (gantryAff cg sg pose.center)
        (Aff.compose pose.toAff Aff.id)))).apply w = _
    rw [Aff.apply_compose, Aff.apply_compose, Aff.apply_compose,
      Aff.apply_compose, Aff.id_apply]
  · exact Aff.invOrtho_apply
      (composedTransform_matrix_isOrtho pose cg sg dist hpose htrig) w
  · apply Vec3.ext3 <;>
      simp [composedTransform, Aff.compose, Aff.apply, Aff.id, camRotAff,
        camShiftAff, gantryAff, Pose.toAff, Pose.identity, gantryMatrix,
        camRotMatrix, Mat3.mul, Mat3.mulVec, Mat3.one, Vec3.add, Vec3.sub,
        Vec3.zero, srcPoint0]
  · apply Vec3.ext3 <;>
      simp [inverseTransformOf, Aff.invOrtho, composedTransform, Aff.compose,
        Aff.apply, Aff.id, camRotAff, camShiftAff, gantryAff, Pose.toAff,
        Pose.identity, gantryMatrix, camRotMatrix, Mat3.mul, Mat3.mulVec,
        Mat3.one, Mat3.transpose, Vec3.add, Vec3.sub, Vec3.zero, Vec3.neg,
        srcPoint0]

/-- Witness for C5 at the identity pose, angle `0`, focal distance `1000`. -/
theorem compose_inverse_transform_correct_witness :
    (composedTransform Pose.identity 1 0 1000).apply ⟨1, 2, 3⟩ =
      camRotAff.apply ((camShiftAff Pose.identity.center 1000).apply
        ((gantryAff 1 0 Pose.identity.center).apply
          (Pose.identity.toAff.apply ⟨1, 2, 3⟩))) ∧
    (inverseTransformOf Pose.identity 1 0 1000).apply
        ((composedTransform Pose.identity 1 0 1000).apply ⟨1, 2, 3⟩) =
      ⟨1, 2, 3⟩ ∧
    (composedTransform Pose.identity 1 0 1000).apply srcPoint0 =
      ⟨0, 0, -1000⟩ ∧
    (inverseTransformOf Pose.identity 1 0 1000).apply srcPoint0 =
      ⟨0, -1000, 0⟩ :=
  compose_inverse_transform_correct Pose.identity 1 0 1000 ⟨1, 2, 3⟩
    Mat3.isOrtho_one (by norm_num)

/-!
## C2, C7, C8: cache staleness, cached source point, idempotence
-/

theorem modifiedSelf_noRebuild {x : MState} (h : x.transM ≤ x.clock) :
    evalUsedInv (modifiedSelf x) = x.invT := by
  unfold evalUsedInv evaluateStateS modifiedSelf
  rw [if_neg (by dsimp only; omega)]

/--
C2 (amended): a value-changing call to `SetProjectionAngle`,
`SetFocalPointToIsocenterDistance` or `SetThreshold`, and any call to
`SetTransform`, stamps the interpolator itself as modified, so the staleness
check `interpMTime < vTransformMTime` fails and the next `Evaluate` keeps
using the previously stored inverse transform instead of recomputing it
from the newly set values.
-/
theorem setters_leave_cache_stale (s : MState) (cg sg d t : ℚ) (p : Pose)
    (hWF : s.transM ≤ s.clock) :
    (¬(s.config.cg = cg ∧ s.config.sg = sg) →
      evalUsedInv (setProjectionAngleS cg sg s) = s.invT) ∧
    (s.config.dist ≠ d → evalUsedInv (setFocalDistanceS d s) = s.invT) ∧
    (s.config.thr ≠ t → evalUsedInv (setThresholdS t s) = s.invT) ∧
    evalUsedInv (setTransformS p s) = s.invT := by
  refine ⟨fun h => ?_, fun h => ?_, fun h => ?_, ?_⟩
  · unfold setProjectionAngleS
    rw [if_neg h]
    exact modifiedSelf_noRebuild hWF
  · unfold setFocalDistanceS
    rw [if_neg h]
    exact modifiedSelf_noRebuild hWF
  · unfold setThresholdS
    rw [if_neg h]
    exact modifiedSelf_noRebuild hWF
  · unfold setTransformS
    exact modifiedSelf_noRebuild hWF

/-- The constructor configuration: identity pose, angle 0, distance 1000. -/
def cfg0 : GeomConfig := ⟨Pose.identity, 1, 0, 1000, 0⟩

/-- A fresh interpolator state. -/
def st0 : MState := ⟨0, 0, 0, cfg0, Aff.id, srcPoint0⟩

/--
The state after: the caller touches the pose object, `Initialize()` builds
the cache, and `SetProjectionAngle` then changes the angle from `0`
(cosine/sine `(1, 0)`) to 90 degrees (cosine/sine `(0, 1)`).
-/
def st1 : MState := setProjectionAngleS 0 1 (initializeS (modifyPoseS Pose.identity st0))

set_option maxRecDepth 4000 in
/--
C2 counterexample: after `SetProjectionAngle` changes the angle, the next
`Evaluate` does **not** recompute the inverse transform: it uses the
transform cached by `Initialize()` under the old angle, which differs from
the one the current configuration would produce.
-/
theorem setter_does_not_invalidate_counterexample :
    evalUsedInv st1 = (initializeS (modifyPoseS Pose.identity st0)).invT ∧
    evalUsedInv st1 ≠ buildInv st1.config := by
  with_unfolding_all decide

/-- Witness for the amended C2 at a concrete state. -/
theorem setters_leave_cache_stale_witness :
    (¬(st0.config.cg = 0 ∧ st0.config.sg = 1) →
      evalUsedInv (setProjectionAngleS 0 1 st0) = st0.invT) ∧
    (st0.config.dist ≠ 500 → evalUsedInv (setFocalDistanceS 500 st0) = st0.invT) ∧
    (st0.config.thr ≠ 7 → evalUsedInv (setThresholdS 7 st0) = st0.invT) ∧
    evalUsedInv (setTransformS Pose.identity st0) = st0.invT :=
  setters_leave_cache_stale st0 0 1 500 7 Pose.identity
    (by with_unfolding_all decide)

/-- Equality of the geometry-relevant configuration fields (threshold aside). -/
def GeomEq (c1 c2 : GeomConfig) : Prop :=
  c1.pose = c2.pose ∧ c1.cg = c2.cg ∧ c1.sg = c2.sg ∧ c1.dist = c2.dist

theorem geomEq_refl (c : GeomConfig) : GeomEq c c := ⟨Eq.refl _, Eq.refl _, Eq.refl _, Eq.refl _⟩

theorem GeomEq.trans {c1 c2 c3 : GeomConfig} (h1 : GeomEq c1 c2)
    (h2 : GeomEq c2 c3) : GeomEq c1 c3 :=
  ⟨h1.1.trans h2.1, h1.2.1.trans h2.2.1, h1.2.2.1.trans h2.2.2.1,
    h1.2.2.2.trans h2.2.2.2⟩

theorem buildInv_congr {c1 c2 : GeomConfig} (h : GeomEq c1 c2) :
    buildInv c1 = buildInv c2 := by
  unfold buildInv
  rw [h.1, h.2.1, h.2.2.1, h.2.2.2]

theorem applyPostOp_invariant (op : PostOp) (x : MState)
    (h : x.invT = buildInv x.config) :
    GeomEq (applyPostOp op x).config x.config ∧
    (applyPostOp op x).invT = x.invT ∧
    (applyPostOp op x).sourceWorld = x.sourceWorld ∧
    (applyPostOp op x).invT = buildInv (applyPostOp op x).config := by
  cases op with
  | eval =>
    show GeomEq (evaluateStateS x).config x.config ∧
      (evaluateStateS x).invT = x.invT ∧
      (evaluateStateS x).sourceWorld = x.sourceWorld ∧
      (evaluateStateS x).invT = buildInv (evaluateStateS x).config
    unfold evaluateStateS
    split_ifs with hr
    · exact ⟨geomEq_refl _, h.symm, rfl, rfl⟩
    · exact ⟨geomEq_refl _, rfl, rfl, h⟩
  | setThr t =>
    show GeomEq (setThresholdS t x).config x.config ∧
      (setThresholdS t x).invT = x.invT ∧
      (setThresholdS t x).sourceWorld = x.sourceWorld ∧
      (setThresholdS t x).invT = buildInv (setThresholdS t x).config
    unfold setThresholdS
    split_ifs with hr
    · exact ⟨geomEq_refl _, rfl, rfl, h⟩
    · exact ⟨⟨rfl, rfl, rfl, rfl⟩, rfl, rfl, h⟩

theorem applyPostOps_invariant (ops : List PostOp) :
    ∀ x : MState, x.invT = buildInv x.config →
    GeomEq (applyPostOps ops x).config x.config ∧
    (applyPostOps ops x).invT = x.invT ∧
    (applyPostOps ops x).sourceWorld = x.sourceWorld ∧
    (applyPostOps ops x).invT = buildInv (applyPostOps ops x).config := by
  induction ops with
  | nil => exact fun x h => ⟨geomEq_refl _, rfl, rfl, h⟩
  | cons op rest ih =>
    intro x h
    have h1 := applyPostOp_invariant op x h
    have h2 := ih (applyPostOp op x) h1.2.2.2
    exact ⟨h2.1.trans h1.1, h2.2.1.trans h1.2.1, h2.2.2.1.trans h1.2.2.1,
      h2.2.2.2⟩

/--
C7: after `Initialize()`, as long as only `Evaluate` calls and threshold
changes follow (the geometry configuration is unchanged), every `Evaluate`
uses exactly the source-world point that `Initialize()` cached.
-/
theorem evaluate_uses_cached_source_world (s : MState) (ops : List PostOp) :
    evalUsedSource (applyPostOps ops (initializeS s)) =
      (initializeS s).sourceWorld := by
  have hinv := applyPostOps_invariant ops (initializeS s) rfl
  show (evaluateStateS (applyPostOps ops (initializeS s))).invT.apply srcPoint0 = _
  unfold evaluateStateS
  split_ifs with hr
  · show (buildInv (applyPostOps ops (initializeS s)).config).apply srcPoint0 = _
    rw [buildInv_congr hinv.1]
    rfl
  · rw [hinv.2.1]
    rfl

theorem evalUsedInv_initializeS (x : MState) :
    evalUsedInv (initializeS x) = buildInv x.config := by
  unfold evalUsedInv evaluateStateS
  split_ifs with h
  · rfl
  · rfl

/--
C8: `Initialize()` is idempotent: a second call with unchanged configuration
leaves the cached source-world point identical, and `Evaluate` returns the
same output for every fixed input point.
-/
theorem initialize_idempotent (s : MState) (v : Volume) (minOut maxOut : ℚ)
    (p : Vec3) :
    (initializeS (initializeS s)).sourceWorld = (initializeS s).sourceWorld ∧
    evalOutput (initializeS (initializeS s)) v minOut maxOut p =
      evalOutput (initializeS s) v minOut maxOut p := by
  constructor
  · rfl
  · unfold evalOutput
    rw [evalUsedInv_initializeS, evalUsedInv_initializeS]
    rfl
